import Mathlib

/-!
Shallow embedding of the Ranking & List-Fusion Engine of
`scripts/seed/build_seed_list.py`, together with proofs of the claims about
it.  Pure Python functions become Lean functions; Python dicts (which
preserve insertion order and have unique keys) become association lists;
Python floats become exact rationals; the HTML trees produced by
BeautifulSoup become a rose-tree datatype.
-/

namespace Seed

/-! ### String helpers (Python `str.strip`, `str.lower`, `re.sub(r"\s+", " ", ·)`) -/

/-- Python `str.strip()` on a character list: drop whitespace at both ends. -/
def stripChars (l : List Char) : List Char :=
  ((l.dropWhile Char.isWhitespace).reverse.dropWhile Char.isWhitespace).reverse

/-- Python `str.strip()`. -/
def pyStrip (s : String) : String := ⟨stripChars s.data⟩

/-- Python `str.lower()` (ASCII-faithful approximation via `Char.toLower`). -/
def pyLower (s : String) : String := ⟨s.data.map Char.toLower⟩

/-- `re.sub(r"\s+", " ", ·)`: replace each maximal whitespace run by one space. -/
def collapseWs : List Char → List Char
  | [] => []
  | [c] => [if c.isWhitespace then ' ' else c]
  | a :: b :: rest =>
    if a.isWhitespace && b.isWhitespace then collapseWs (b :: rest)
    else (if a.isWhitespace then ' ' else a) :: collapseWs (b :: rest)

/-- Source `normalize_key`: `re.sub(r"\s+", " ", title.strip().lower())`. -/
def normalize_key (title : String) : String :=
  ⟨collapseWs (pyLower (pyStrip title)).data⟩

/-! ### Association lists standing for Python dicts.
Python dicts preserve insertion order; the code only ever appends fresh keys
or updates the value at an existing key, so we model them as ordered
association lists with lookup returning the first (equivalently, unique)
match. -/

/-- Dict lookup: first value stored under key `k`. -/
def afind (k : String) : List (String × α) → Option α
  | [] => none
  | (k2, v) :: rest => if k2 = k then some v else afind k rest

/-- Update the value at an existing key in place (dict `m[k] = f m[k]`). -/
def amodify (k : String) (f : α → α) : List (String × α) → List (String × α)
  | [] => []
  | (k2, v) :: rest => if k2 = k then (k2, f v) :: rest else (k2, v) :: amodify k f rest

/-- The keys of a dict, in insertion order. -/
def keys (m : List (String × α)) : List String := m.map Prod.fst

/-! ### HTML document model.
A BeautifulSoup parse tree: elements carry a tag, an attribute dict and
children; leaves are text.  A mutual inductive keeps all traversals
structurally recursive (hence computable by `decide`/`rfl`). -/

mutual
inductive Node where
  | text (s : String)
  | elem (tag : String) (attrs : List (String × String)) (children : NodeList)
inductive NodeList where
  | nil
  | cons (head : Node) (tail : NodeList)
end

/-- Convert a `List Node` into the internal `NodeList`. -/
def toNL : List Node → NodeList
  | [] => .nil
  | n :: r => .cons n (toNL r)

/-- Convert the internal `NodeList` back into a `List Node`. -/
def NodeList.toList : NodeList → List Node
  | .nil => []
  | .cons n r => n :: NodeList.toList r

/-- Element constructor taking an ordinary list of children. -/
def Node.el (tag : String) (attrs : List (String × String)) (ch : List Node) : Node :=
  .elem tag attrs (toNL ch)

/-- Does the node have the given element tag? -/
def isTag (t : String) : Node → Bool
  | .text _ => false
  | .elem tag _ _ => tag = t

/-- Attribute lookup (`node.get(a)`). -/
def getAttr (n : Node) (a : String) : Option String :=
  match n with
  | .text _ => none
  | .elem _ attrs _ => afind a attrs

/-- Attribute lookup with default (`node.get(a, d)`). -/
def attrD (n : Node) (a : String) (d : String) : String := (getAttr n a).getD d

mutual
/-- `node.find_all(p)`: all descendants satisfying `p`, in document
(pre-)order; the node itself is not included, matching BeautifulSoup. -/
def findAllIn (p : Node → Bool) : Node → List Node
  | .text _ => []
  | .elem _ _ ch => findAllNL p ch

/-- `find_all` over a sibling list: each node (if matching) followed by its
matching descendants, in document order. -/
def findAllNL (p : Node → Bool) : NodeList → List Node
  | .nil => []
  | .cons n rest => (if p n then [n] else []) ++ findAllIn p n ++ findAllNL p rest
end

/-- `soup.find_all(p)` over a whole document (a forest of top-level nodes). -/
def findAllTop (p : Node → Bool) : List Node → List Node
  | [] => []
  | n :: rest => (if p n then [n] else []) ++ findAllIn p n ++ findAllTop p rest

mutual
/-- `node.get_text()`: concatenation of all text descendants. -/
def getTextN : Node → String
  | .text s => s
  | .elem _ _ ch => getTextNL ch

/-- `get_text()` over a sibling list. -/
def getTextNL : NodeList → String
  | .nil => ""
  | .cons n rest => getTextN n ++ getTextNL rest
end

mutual
/-- `node.get_text(strip=True)`: concatenation of the stripped text
descendants (BeautifulSoup strips each string fragment and joins them). -/
def getTextStripN : Node → String
  | .text s => pyStrip s
  | .elem _ _ ch => getTextStripNL ch

/-- `get_text(strip=True)` over a sibling list. -/
def getTextStripNL : NodeList → String
  | .nil => ""
  | .cons n rest => getTextStripN n ++ getTextStripNL rest
end

/-- `ol.find_all("li", recursive=False)`: direct children with tag `li`. -/
def directLis : Node → List Node
  | .text _ => []
  | .elem _ _ ch => ch.toList.filter (isTag "li")

/-! ### Rank extraction (`extract_rank`). -/

/-- Python `\w` on our character model (ASCII approximation). -/
def isWordChar (c : Char) : Bool := c.isAlphanum || c = '_'

/-- Is the next position a word boundary, i.e. is the upcoming character
absent or not a word character (the previous one being a digit)? -/
def nonWordOrEnd : List Char → Bool
  | [] => true
  | c :: _ => !(isWordChar c)

/-- Numeric value of a digit character. -/
def digitVal (c : Char) : Nat := c.toNat - 48

/-- Try to match `(\d{1,3})\b` greedily at the current position (the
leading `\b` has already been checked by the caller). -/
def tryDigitsAt : List Char → Option Nat
  | [] => none
  | [a] => if a.isDigit then some (digitVal a) else none
  | [a, b] =>
    if a.isDigit && b.isDigit then some (10 * digitVal a + digitVal b)
    else if a.isDigit && !isWordChar b then some (digitVal a)
    else none
  | a :: b :: c :: rest =>
    if a.isDigit && b.isDigit && c.isDigit && nonWordOrEnd rest then
      some (100 * digitVal a + 10 * digitVal b + digitVal c)
    else if a.isDigit && b.isDigit && !isWordChar c then
      some (10 * digitVal a + digitVal b)
    else if a.isDigit && !isWordChar b then some (digitVal a)
    else none

/-- Leftmost match of `re.search(r"\b(\d{1,3})\b", ·)`: walk the characters
carrying whether the previous character was a word character; at each word
boundary followed by a digit, try the greedy digit match. -/
def findRank : Bool → List Char → Option Nat
  | _, [] => none
  | prevW, c :: rest =>
    if !prevW && c.isDigit then
      match tryDigitsAt (c :: rest) with
      | some n => some n
      | none => findRank (isWordChar c) rest
    else findRank (isWordChar c) rest

/-- Source `extract_rank`: first word-bounded 1–3 digit integer in `text`. -/
def extract_rank (text : String) : Option Nat := findRank false text.data

/-! ### Title extraction (`extract_title_from_node`). -/

/-- Does the first list start with the second (`str.startswith`)?  Defined
over character lists so that concrete documents evaluate inside proofs. -/
def startsWithChars : List Char → List Char → Bool
  | _, [] => true
  | [], _ :: _ => false
  | a :: as, b :: bs => a = b && startsWithChars as bs

/-- Python `href.startswith(pre)`. -/
def pyStartsWith (s pre : String) : Bool := startsWithChars s.data pre.data

/-- Source `EXCLUDED_NAMESPACE_PREFIXES`. -/
def excludedNamespaces : List String :=
  ["File", "Category", "Wikipedia", "Template", "Portal", "Help",
   "Special", "Talk", "User", "Draft", "Module", "Book"]

/-- The namespace part of a title: the text before the first `:`
(`title.split(":", 1)[0]`). -/
def nsHead (s : String) : String := ⟨s.data.takeWhile (fun c => c ≠ ':')⟩

/-- Scan the links of a node in document order and return the first whose
target is a `/wiki/` link and whose (truthy) title is not in an excluded
namespace — the fallback loop of `extract_title_from_node`. -/
def firstValidLink : List Node → Option String
  | [] => none
  | link :: rest =>
    if !pyStartsWith (attrD link "href" "") "/wiki/" then firstValidLink rest
    else
      let title :=
        match getAttr link "title" with
        | some t => if t = "" then getTextStripN link else t
        | none => getTextStripN link
      if title = "" then firstValidLink rest
      else if title.data.contains ':' && excludedNamespaces.contains (nsHead title) then
        firstValidLink rest
      else some title

/-- The body of `extract_title_from_node` after the italic branch fails to
return: the italic's own stripped text if non-empty, else the link scan. -/
def italicTextOrLinks (node italic : Node) : Option String :=
  let text := getTextStripN italic
  if text ≠ "" then some text
  else firstValidLink (findAllIn (isTag "a") node)

/-- Source `extract_title_from_node`: prefer an italicized span containing a
`/wiki/` link (returning its text, possibly empty), else the italic's own
text, else the first valid link anywhere in the node. -/
def extract_title_from_node (node : Node) : Option String :=
  match (findAllIn (isTag "i") node).head? with
  | some italic =>
    match (findAllIn (isTag "a") italic).head? with
    | some link =>
      if pyStartsWith (attrD link "href" "") "/wiki/" then some (getTextStripN link)
      else italicTextOrLinks node italic
    | none => italicTextOrLinks node italic
  | none => firstValidLink (findAllIn (isTag "a") node)

/-! ### Document-level extraction (`extract_ranked_from_html`). -/

/-- Python truthiness of the optional title at the call sites
(`if title:`): present and non-empty. -/
def truthyTitle : Option String → Option String
  | none => none
  | some t => if t = "" then none else some t

/-- The entries one ordered list contributes: 1-based positional rank over
its direct `li` children, keeping those with a truthy title. -/
def olEntries (ol : Node) : List (Nat × String) :=
  (List.enumFrom 1 (directLis ol)).filterMap
    (fun p => (truthyTitle (extract_title_from_node p.2)).map (fun t => (p.1, t)))

/-- The ordered-list strategy: first `ol` with at least 50 direct `li`
children whose entries are non-empty wins. -/
def tryOls : List Node → List (Nat × String)
  | [] => []
  | ol :: rest =>
    if (directLis ol).length < 50 then tryOls rest
    else
      match olEntries ol with
      | [] => tryOls rest
      | rs => rs

/-- The `th`/`td` descendants of a row (`row.find_all(["th", "td"])`). -/
def cellsOf (row : Node) : List Node :=
  findAllIn (fun n => isTag "th" n || isTag "td" n) row

/-- The entry one table row contributes: rank from the first cell's text,
title from the row; `none` when the row has no cells, no word-bounded 1–3
digit integer in its first cell, or no truthy title. -/
def rowEntry (row : Node) : Option (Nat × String) :=
  match cellsOf row with
  | [] => none
  | c0 :: _ =>
    match extract_rank (getTextN c0) with
    | none => none
    | some r => (truthyTitle (extract_title_from_node row)).map (fun t => (r, t))

/-- The entries one table contributes. -/
def tableEntries (table : Node) : List (Nat × String) :=
  (findAllIn (isTag "tr") table).filterMap rowEntry

/-- The table strategy: first table with a non-empty entry list wins.  The
source selects `"table.wikitable, table.sortable, table"`; since the bare
`table` selector matches every table and soupsieve returns unique matches
in document order, the candidate list is exactly all tables in document
order. -/
def tryTables : List Node → List (Nat × String)
  | [] => []
  | t :: rest =>
    match tableEntries t with
    | [] => tryTables rest
    | rs => rs

/-- Source `extract_ranked_from_html`: ordered-list strategy first, table
strategy only if it yields nothing. -/
def extract_ranked_from_html (doc : List Node) : List (Nat × String) :=
  match tryOls (findAllTop (isTag "ol") doc) with
  | [] => tryTables (findAllTop (isTag "table") doc)
  | rs => rs

/-! ### Consensus scorer (`build_goat_scores`).
The network/markup plumbing around it is consumed as input: each
successfully extracted list contributes its `(rank, title)` sequence;
lists whose page lookup, parse or extraction failed are warned about and
skipped, i.e. absent from the input. -/

/-- One consensus record (`scores[key]` dict in the source). -/
structure ConsensusRecord where
  points : Int
  lists : Nat
  best_rank : Nat
  title : String
deriving Repr, DecidableEq

/-- Points one entry contributes: `max(0, 101 - rank)`. -/
def pointsFor (rank : Nat) : Int := max 0 (101 - (rank : Int))

/-- Process one `(rank, title)` entry: `setdefault` with the zero record
(sentinel `best_rank = 999`), then add points, bump the list counter, take
the minimum rank and overwrite the display title. -/
def updateScore (scores : List (String × ConsensusRecord)) (rank : Nat)
    (title : String) : List (String × ConsensusRecord) :=
  match afind (normalize_key title) scores with
  | none => scores ++ [(normalize_key title, ⟨pointsFor rank, 1, min 999 rank, title⟩)]
  | some _ =>
    amodify (normalize_key title)
      (fun d => ⟨d.points + pointsFor rank, d.lists + 1, min d.best_rank rank, title⟩)
      scores

/-- Process the entries of one ranked list in order. -/
def processList (scores : List (String × ConsensusRecord))
    (entries : List (Nat × String)) : List (String × ConsensusRecord) :=
  entries.foldl (fun s e => updateScore s e.1 e.2) scores

/-- Source `build_goat_scores` over the successfully extracted lists. -/
def build_goat_scores (ranked_lists : List (List (Nat × String))) :
    List (String × ConsensusRecord) :=
  ranked_lists.foldl processList []

/-! ### Candidate fusion map (`filter_films` dedup and the
`film_by_key` merge in `main`): first-identity-wins insertion keyed by
`normalize_key(item.wikipedia_title)`. -/

/-- A film candidate (`FilmItem` dataclass). -/
structure FilmItem where
  title : String
  wikipedia_title : String
  wikidata_id : String
deriving Repr, DecidableEq

/-- Insert one candidate: `if key not in films: films[key] = item`. -/
def fuseInsert (films : List (String × FilmItem)) (item : FilmItem) :
    List (String × FilmItem) :=
  match afind (normalize_key item.wikipedia_title) films with
  | some _ => films
  | none => films ++ [(normalize_key item.wikipedia_title, item)]

/-- Insert a whole discovery batch in order. -/
def fuseBatch (films : List (String × FilmItem)) (items : List FilmItem) :
    List (String × FilmItem) :=
  items.foldl fuseInsert films

/-- The dedup core of `filter_films`: fold all batches into one map,
starting empty; enumeration order is insertion order. -/
def filter_films (batches : List (List FilmItem)) : List (String × FilmItem) :=
  batches.foldl fuseBatch []

/-! ### Popularity scorer (`search_score` in `main`). -/

/-- `max(pv_totals.values()) if pv_totals else 1`.  Since the counts are
non-negative integers, folding `Nat.max` from `0` over a non-empty list is
exactly Python's `max` of its values. -/
def max_pv (pv : List (String × Nat)) : Nat :=
  if pv.isEmpty then 1 else (pv.map Prod.snd).foldl Nat.max 0

/-- Source `search_score`: normalized pageview count, blended 0.75/0.25
with the external weight when a weight mapping was supplied. -/
def search_score (pv : List (String × Nat)) (us : List (String × ℚ))
    (key : String) : ℚ :=
  let pv_norm : ℚ := (((afind key pv).getD 0 : Nat) : ℚ) / (max_pv pv : ℚ)
  let us_weight : ℚ := (afind key us).getD 0
  if us.isEmpty then pv_norm else 0.75 * pv_norm + 0.25 * us_weight

/-! ### Segment selector (`main`, goat and likely selection). -/

/-- The sort key of the goat ranking:
`(-points, -lists, best_rank)`. -/
def goatKey (d : ConsensusRecord) : Int × Int × Nat :=
  (-d.points, -(d.lists : Int), d.best_rank)

/-- Lexicographic order on the sort-key triples, as Python compares
tuples. -/
def tupLe (a b : Int × Int × Nat) : Prop :=
  a.1 < b.1 ∨ (a.1 = b.1 ∧ (a.2.1 < b.2.1 ∨ (a.2.1 = b.2.1 ∧ a.2.2 ≤ b.2.2)))

instance : DecidableRel tupLe := fun a b => by unfold tupLe; infer_instance

/-- The comparison `sorted(..., key=...)` performs on goat entries. -/
def goatLe (a b : String × ConsensusRecord) : Prop := tupLe (goatKey a.2) (goatKey b.2)

instance : DecidableRel goatLe := fun a b => by unfold goatLe; infer_instance

/-- Python `sorted` is a stable sort; we embed it as the stable
`List.insertionSort` with the same comparison. -/
def sortRecords (l : List (String × ConsensusRecord)) : List (String × ConsensusRecord) :=
  List.insertionSort goatLe l

/-- `goat_ranked`/`goat_selected` in `main`: keep the records whose display
title re-normalizes into the resolved-key set `goat_keys`, sort stably by
the key tuple, truncate to `goat_limit`.  (`goat_selected` is the dict of
exactly these pairs, in this order.) -/
def goatRanked (goat_scores : List (String × ConsensusRecord)) (goat_keys : List String)
    (goat_limit : Nat) : List (String × ConsensusRecord) :=
  (sortRecords (goat_scores.filter
    (fun p => goat_keys.contains (normalize_key p.2.title)))).take goat_limit

/-- The descending-score comparison of `likely_candidates.sort(key=...,
reverse=True)` (stable, ties in encounter order). -/
def scoreLe (a b : String × ℚ) : Prop := b.2 ≤ a.2

instance : DecidableRel scoreLe := fun a b => by unfold scoreLe; infer_instance

/-- `likely_candidates` in `main`: the fused universe minus the reserved
identities, each with its search score. -/
def likelyCandidates (uni : List (String × FilmItem))
    (goatSel : List (String × ConsensusRecord)) (pv : List (String × Nat))
    (us : List (String × ℚ)) : List (String × ℚ) :=
  ((keys uni).filter (fun k => !(keys goatSel).contains k)).map
    (fun k => (k, search_score pv us k))

/-- `likely_selected` in `main`: sort by score descending (stably), take
`max(0, seed_limit - goat_limit)` — truncated `Nat` subtraction is exactly
that clamp. -/
def likelySelected (uni : List (String × FilmItem))
    (goatSel : List (String × ConsensusRecord)) (pv : List (String × Nat))
    (us : List (String × ℚ)) (seed_limit goat_limit : Nat) : List (String × ℚ) :=
  (List.insertionSort scoreLe (likelyCandidates uni goatSel pv us)).take
    (seed_limit - goat_limit)

/-- One final output row. -/
structure SeedItem where
  title : String
  wikipedia_title : String
  wikidata_id : String
  segment : String
  goat_score : Option Int
  pageviews_12m : Nat
  search_score : ℚ
deriving Repr, DecidableEq

/-- The `seed_items` assembly in `main`: the goat loop (skipping keys with
no candidate: `if not item: continue`) followed by the likely loop. -/
def seed_items (uni : List (String × FilmItem))
    (goatSel : List (String × ConsensusRecord)) (likelySel : List (String × ℚ))
    (pv : List (String × Nat)) (us : List (String × ℚ)) : List SeedItem :=
  goatSel.filterMap (fun kd => (afind kd.1 uni).map (fun item =>
    ⟨item.title, item.wikipedia_title, item.wikidata_id, "goat",
     some kd.2.points, (afind kd.1 pv).getD 0, search_score pv us kd.1⟩))
  ++ likelySel.filterMap (fun ks => (afind ks.1 uni).map (fun item =>
    ⟨item.title, item.wikipedia_title, item.wikidata_id, "likely",
     none, (afind ks.1 pv).getD 0, ks.2⟩))

/-! ### Concurrent fetch orchestrator (`fetch_one` and the thread-pool loop
in `main`).  The per-item fetch is an oracle `fetch`; one future per
candidate is submitted, and `as_completed` hands the results back in an
arbitrary order — modelled as an arbitrary permutation of the per-item
results — after which `pv_totals[key] = total` merges each one. -/

/-- Source `fetch_one`: a failing fetch is caught and reported as
`(key, 0, exc)`; a successful one returns `(key, total, None)`. -/
def fetch_one (fetch : FilmItem → Except String Nat) (entry : String × FilmItem) :
    String × Nat × Option String :=
  match fetch entry.2 with
  | .ok total => (entry.1, total, none)
  | .error exc => (entry.1, 0, some exc)

/-- `pv_totals[key] = total`: overwrite an existing key, else append. -/
def upsert (m : List (String × Nat)) (kv : String × Nat) : List (String × Nat) :=
  match afind kv.1 m with
  | some _ => amodify kv.1 (fun _ => kv.2) m
  | none => m ++ [kv]

/-- Merge the completed futures into `pv_totals` in completion order. -/
def mergeResults (completions : List (String × Nat × Option String)) :
    List (String × Nat) :=
  completions.foldl (fun m r => upsert m (r.1, r.2.1)) []

/-! ### Concrete inputs used by the witnesses below -/

/-- A film whose display, article and external ids coincide. -/
def wFilm (s : String) : FilmItem := ⟨s, s, s⟩

/-- A small fused universe of four candidates. -/
def wUni : List (String × FilmItem) :=
  [("f0", wFilm "f0"), ("f1", wFilm "f1"), ("f2", wFilm "f2"), ("f3", wFilm "f3")]

/-- Pageview totals for the four candidates. -/
def wPv : List (String × Nat) := [("f0", 10), ("f1", 9), ("f2", 8), ("f3", 7)]

/-- Consensus records: two resolvable, one whose title resolves nowhere. -/
def wGs : List (String × ConsensusRecord) :=
  [("f0", ⟨500, 3, 1, "f0"⟩), ("f1", ⟨400, 2, 2, "f1"⟩), ("bad", ⟨999, 5, 1, "bad!"⟩)]

/-- The resolved identity set for the witness. -/
def wGk : List String := ["f0", "f1"]

/-- A list item holding one qualifying article link. -/
def wLi : Node :=
  Node.el "li" [] [Node.el "a" [("href", "/wiki/X"), ("title", "X")] [Node.text "X"]]

/-- A document with one 50-item ordered list. -/
def wOlDoc : List Node := [Node.el "ol" [] (List.replicate 50 wLi)]

/-- A document whose only table row carries a literal `0` in its rank
cell, next to an italicized film-article link. -/
def wC8Doc : List Node :=
  [Node.el "table" [] [Node.el "tr" []
    [Node.el "td" [] [Node.text "0"],
     Node.el "td" [] [Node.el "i" []
       [Node.el "a" [("href", "/wiki/Casablanca_(film)")] [Node.text "Casablanca"]]]]]]

/-- A table row whose rank cell reads `12`. -/
def wRow : Node :=
  Node.el "tr" []
    [Node.el "td" [] [Node.text "12"],
     Node.el "td" [] [Node.el "i" []
       [Node.el "a" [("href", "/wiki/Casablanca_(film)")] [Node.text "Casablanca"]]]]

/-! ## Helper lemmas about the dict model -/

theorem afind_append_none {k : String} {l1 l2 : List (String × α)}
    (h : afind k l1 = none) : afind k (l1 ++ l2) = afind k l2 := by
  induction l1 with
  | nil => rfl
  | cons p rest ih =>
    obtain ⟨k2, v⟩ := p
    by_cases hk : k2 = k
    · simp [afind, hk] at h
    · simp only [afind, hk, if_false] at h
      simpa [afind, hk] using ih h

theorem afind_append_some {k : String} {l1 l2 : List (String × α)} {v : α}
    (h : afind k l1 = some v) : afind k (l1 ++ l2) = some v := by
  induction l1 with
  | nil => simp [afind] at h
  | cons p rest ih =>
    obtain ⟨k2, w⟩ := p
    by_cases hk : k2 = k
    · simp only [afind, hk, if_true] at h
      simp [afind, hk, h]
    · simp only [afind, hk, if_false] at h
      simpa [afind, hk] using ih h

theorem afind_amodify_self {k : String} {f : α → α} {l : List (String × α)} :
    afind k (amodify k f l) = (afind k l).map f := by
  induction l with
  | nil => rfl
  | cons p rest ih =>
    obtain ⟨k2, v⟩ := p
    by_cases hk : k2 = k
    · simp [afind, amodify, hk]
    · simpa [afind, amodify, hk] using ih

theorem afind_amodify_ne {k k2 : String} (h : k ≠ k2) {f : α → α}
    {l : List (String × α)} : afind k (amodify k2 f l) = afind k l := by
  induction l with
  | nil => rfl
  | cons p rest ih =>
    obtain ⟨k3, v⟩ := p
    by_cases hk : k3 = k2
    · subst hk
      simp [afind, amodify, Ne.symm h]
    · simp only [amodify, hk, if_false]
      by_cases hk3 : k3 = k
      · simp [afind, hk3]
      · simpa [afind, hk3] using ih

theorem afind_eq_none_iff {k : String} {l : List (String × α)} :
    afind k l = none ↔ k ∉ keys l := by
  induction l with
  | nil => simp [afind, keys]
  | cons p rest ih =>
    obtain ⟨k2, v⟩ := p
    by_cases hk : k2 = k
    · simp [afind, hk, keys]
    · simp [afind, hk, keys, Ne.symm hk, ih]

theorem mem_of_afind {k : String} {l : List (String × α)} {v : α}
    (h : afind k l = some v) : (k, v) ∈ l := by
  induction l with
  | nil => simp [afind] at h
  | cons p rest ih =>
    obtain ⟨k2, w⟩ := p
    by_cases hk : k2 = k
    · simp only [afind, hk, if_true, Option.some.injEq] at h
      subst hk; subst h; exact List.mem_cons_self _ _
    · simp only [afind, hk, if_false] at h
      exact List.mem_cons_of_mem _ (ih h)

theorem afind_of_mem_nodup {k : String} {l : List (String × α)} {v : α}
    (hnd : (keys l).Nodup) (hm : (k, v) ∈ l) : afind k l = some v := by
  induction l with
  | nil => simp at hm
  | cons p rest ih =>
    obtain ⟨k2, w⟩ := p
    simp only [keys, List.map_cons, List.nodup_cons] at hnd
    rcases List.mem_cons.mp hm with h | h
    · obtain ⟨rfl, rfl⟩ := Prod.mk.injEq .. ▸ h
      simp [afind]
    · have hk : k2 ≠ k := by
        rintro rfl
        exact hnd.1 (List.mem_map.mpr ⟨_, h, rfl⟩)
      simpa [afind, hk] using ih hnd.2 h

/-! ## Claim C5: consensus scorer update -/

theorem updateScore_mono (s : List (String × ConsensusRecord)) (rank : Nat)
    (title : String) {k : String} {d : ConsensusRecord} (h : afind k s = some d) :
    ∃ d2, afind k (updateScore s rank title) = some d2 ∧
      d2.best_rank ≤ d.best_rank ∧ d.points ≤ d2.points ∧ d.lists ≤ d2.lists := by
  unfold updateScore
  by_cases hk : k = normalize_key title
  · subst hk
    rw [h]
    refine ⟨⟨d.points + pointsFor rank, d.lists + 1, min d.best_rank rank, title⟩,
      ?_, min_le_left _ _, le_add_of_nonneg_right (le_max_left _ _), Nat.le_succ _⟩
    rw [afind_amodify_self, h, Option.map_some']
  · cases h2 : afind (normalize_key title) s with
    | none =>
      exact ⟨d, afind_append_some h, le_refl _, le_refl _, le_refl _⟩
    | some d0 =>
      exact ⟨d, (afind_amodify_ne hk).trans h, le_refl _, le_refl _, le_refl _⟩

theorem processList_mono (entries : List (Nat × String)) :
    ∀ (s : List (String × ConsensusRecord)) (k : String) (d : ConsensusRecord),
      afind k s = some d →
      ∃ d2, afind k (processList s entries) = some d2 ∧
        d2.best_rank ≤ d.best_rank ∧ d.points ≤ d2.points ∧ d.lists ≤ d2.lists := by
  induction entries with
  | nil => exact fun s k d h => ⟨d, h, le_refl _, le_refl _, le_refl _⟩
  | cons e rest ih =>
    intro s k d h
    obtain ⟨d1, h1, hb1, hp1, hl1⟩ := updateScore_mono s e.1 e.2 h
    obtain ⟨d2, h2, hb2, hp2, hl2⟩ := ih _ k d1 h1
    exact ⟨d2, h2, le_trans hb2 hb1, le_trans hp1 hp2, le_trans hl1 hl2⟩

/-- Claim C5: each `(rank, raw_title)` contribution updates the record keyed
by `normalize(raw_title)`, adding `max(0, 101 - rank)` points (rank 1 gives
100, rank ≥ 101 gives 0), incrementing the list counter, taking the minimum
best rank, and overwriting the display title; no other record changes, and
across any update sequence `best_rank` never increases, `points` and
`lists` never decrease, and no record is deleted. -/
theorem C5_consensus_update (s : List (String × ConsensusRecord)) (rank : Nat)
    (title : String) :
    (afind (normalize_key title) (updateScore s rank title) =
      some (match afind (normalize_key title) s with
        | none => ⟨pointsFor rank, 1, min 999 rank, title⟩
        | some d => ⟨d.points + pointsFor rank, d.lists + 1, min d.best_rank rank, title⟩)) ∧
    (∀ k, k ≠ normalize_key title →
      afind k (updateScore s rank title) = afind k s) ∧
    pointsFor 1 = 100 ∧
    (∀ r : Nat, 101 ≤ r → pointsFor r = 0) ∧
    (∀ r : Nat, pointsFor r = max 0 (101 - (r : Int))) ∧
    (∀ (entries : List (Nat × String)) (k : String) (d : ConsensusRecord),
      afind k s = some d →
      ∃ d2, afind k (processList s entries) = some d2 ∧
        d2.best_rank ≤ d.best_rank ∧ d.points ≤ d2.points ∧ d.lists ≤ d2.lists) := by
  refine ⟨?_, ?_, by decide, ?_, fun r => rfl, fun entries k d h => processList_mono entries s k d h⟩
  · unfold updateScore
    cases h : afind (normalize_key title) s with
    | none =>
      rw [afind_append_none h]
      simp [afind]
    | some d =>
      rw [afind_amodify_self, h, Option.map_some']
  · intro k hk
    unfold updateScore
    cases h : afind (normalize_key title) s with
    | none =>
      cases h2 : afind k s with
      | none =>
        rw [afind_append_none h2]
        simp [afind, Ne.symm hk]
      | some v => exact afind_append_some h2
    | some d => exact afind_amodify_ne hk
  · intro r hr
    unfold pointsFor
    rw [max_eq_left (by omega)]

/-- Witness for C5 at a concrete update sequence. -/
theorem C5_witness :
    afind "b" [(("b" : String), (⟨100, 1, 3, "B"⟩ : ConsensusRecord))] = some ⟨100, 1, 3, "B"⟩ ∧
    ((101 : Nat) ≤ 150 ∧ pointsFor 150 = 0) ∧
    (∃ d2, afind "b" (processList [("b", ⟨100, 1, 3, "B"⟩)] [(2, "b"), (7, "B")]) = some d2 ∧
      d2.best_rank ≤ 3 ∧ (100 : Int) ≤ d2.points ∧ 1 ≤ d2.lists) :=
  ⟨by decide, ⟨by decide, (C5_consensus_update [("b", ⟨100, 1, 3, "B"⟩)] 2 "b").2.2.2.1 150 (by decide)⟩,
    (C5_consensus_update [("b", ⟨100, 1, 3, "B"⟩)] 2 "b").2.2.2.2.2
      [(2, "b"), (7, "B")] "b" ⟨100, 1, 3, "B"⟩ (by decide)⟩

/-! ## Claim C6: candidate fusion map -/

theorem fuseInsert_pres {films : List (String × FilmItem)} {k : String}
    {v : FilmItem} (h : afind k films = some v) (item : FilmItem) :
    afind k (fuseInsert films item) = some v := by
  unfold fuseInsert
  cases h2 : afind (normalize_key item.wikipedia_title) films with
  | some w => exact h
  | none =>
    by_cases hk : k = normalize_key item.wikipedia_title
    · rw [hk] at h; rw [h] at h2; exact absurd h2 (by simp)
    · exact afind_append_some h

theorem fuseInsert_nodup {films : List (String × FilmItem)} (item : FilmItem)
    (h : (keys films).Nodup) : (keys (fuseInsert films item)).Nodup := by
  unfold fuseInsert
  cases h2 : afind (normalize_key item.wikipedia_title) films with
  | some w => exact h
  | none =>
    have hk := afind_eq_none_iff.mp h2
    simp only [keys, List.map_append, List.map_cons, List.map_nil]
    rw [List.nodup_append]
    refine ⟨h, List.nodup_singleton _, ?_⟩
    intro a ha hb
    rw [List.mem_singleton] at hb
    subst hb
    exact hk ha

theorem fuseBatch_pres (items : List FilmItem) :
    ∀ (films : List (String × FilmItem)) (k : String) (v : FilmItem),
      afind k films = some v → afind k (fuseBatch films items) = some v := by
  induction items with
  | nil => exact fun films k v h => h
  | cons i rest ih =>
    intro films k v h
    exact ih _ k v (fuseInsert_pres h i)

theorem fuseBatch_append (items : List FilmItem) :
    ∀ films : List (String × FilmItem), ∃ tail, fuseBatch films items = films ++ tail := by
  induction items with
  | nil => exact fun films => ⟨[], by simp [fuseBatch]⟩
  | cons i rest ih =>
    intro films
    obtain ⟨t1, h1⟩ := ih (fuseInsert films i)
    have h0 : fuseBatch films (i :: rest) = fuseBatch (fuseInsert films i) rest := rfl
    cases h2 : afind (normalize_key i.wikipedia_title) films with
    | some w =>
      refine ⟨t1, ?_⟩
      rw [h0, h1]
      unfold fuseInsert
      rw [h2]
    | none =>
      refine ⟨(normalize_key i.wikipedia_title, i) :: t1, ?_⟩
      rw [h0, h1]
      unfold fuseInsert
      rw [h2]
      simp

theorem fuseBatch_nodup (items : List FilmItem) :
    ∀ films : List (String × FilmItem),
      (keys films).Nodup → (keys (fuseBatch films items)).Nodup := by
  induction items with
  | nil => exact fun films h => h
  | cons i rest ih => exact fun films h => ih _ (fuseInsert_nodup i h)

/-- Claim C6: the fusion map is first-identity-wins — inserting an already
present identity is a no-op, existing bindings survive any further batches
(so the display form of the first insertion is retained), the key set stays
duplicate-free (at most one item per identity), and new items are appended,
i.e. enumeration is insertion order. -/
theorem C6_fusion_first_wins (films : List (String × FilmItem)) (item : FilmItem) :
    ((afind (normalize_key item.wikipedia_title) films).isSome = true →
      fuseInsert films item = films) ∧
    (∀ k v, afind k films = some v → afind k (fuseInsert films item) = some v) ∧
    ((keys films).Nodup → (keys (fuseInsert films item)).Nodup) ∧
    (∀ (items : List FilmItem) (k : String) (v : FilmItem),
      afind k films = some v → afind k (fuseBatch films items) = some v) ∧
    (∀ items : List FilmItem, ∃ tail, fuseBatch films items = films ++ tail) ∧
    (∀ batches : List (List FilmItem), (keys (filter_films batches)).Nodup) := by
  refine ⟨?_, fun k v h => fuseInsert_pres h item, fuseInsert_nodup item,
    fun items k v h => fuseBatch_pres items films k v h,
    fun items => fuseBatch_append items films, ?_⟩
  · intro h
    obtain ⟨v, hv⟩ := Option.isSome_iff_exists.mp h
    unfold fuseInsert
    rw [hv]
  · intro batches
    have : ∀ acc : List (String × FilmItem), (keys acc).Nodup →
        (keys (batches.foldl fuseBatch acc)).Nodup := by
      induction batches with
      | nil => exact fun acc h => h
      | cons b rest ih => exact fun acc h => ih _ (fuseBatch_nodup b acc h)
    exact this [] (by simp [keys])

/-- Witness for C6 at a concrete collision. -/
theorem C6_witness :
    ((afind (normalize_key (FilmItem.mk "A2" "X" "Q2").wikipedia_title)
        [("x", FilmItem.mk "A" "X" "Q1")]).isSome = true ∧
      fuseInsert [("x", FilmItem.mk "A" "X" "Q1")] (FilmItem.mk "A2" "X" "Q2") =
        [("x", FilmItem.mk "A" "X" "Q1")]) ∧
    afind "x" (fuseBatch [("x", FilmItem.mk "A" "X" "Q1")]
        [FilmItem.mk "A2" "X" "Q2", FilmItem.mk "B" "Y" "Q3"]) =
      some (FilmItem.mk "A" "X" "Q1") :=
  ⟨⟨by decide, (C6_fusion_first_wins _ _).1 (by decide)⟩,
    (C6_fusion_first_wins [("x", FilmItem.mk "A" "X" "Q1")] (FilmItem.mk "A2" "X" "Q2")).2.2.2.1
      [FilmItem.mk "A2" "X" "Q2", FilmItem.mk "B" "Y" "Q3"] "x" (FilmItem.mk "A" "X" "Q1")
      (by decide)⟩

/-! ## Claim C2: resolution misses are dropped before the cut -/

/-- Claim C2: a consensus record whose identity does not resolve to a known
candidate is excluded before the `goat_limit` cut — deleting it from the
input leaves the selection unchanged, so it consumes no slot and does not
affect any other record; and every selected record does resolve. -/
theorem C2_resolution_miss :
    (∀ (gs1 gs2 : List (String × ConsensusRecord)) (k : String)
      (d : ConsensusRecord) (gk : List String) (gl : Nat),
      gk.contains (normalize_key d.title) = false →
      goatRanked (gs1 ++ (k, d) :: gs2) gk gl = goatRanked (gs1 ++ gs2) gk gl) ∧
    (∀ (gs : List (String × ConsensusRecord)) (gk : List String) (gl : Nat)
      (p : String × ConsensusRecord), p ∈ goatRanked gs gk gl →
      gk.contains (normalize_key p.2.title) = true) := by
  constructor
  · intro gs1 gs2 k d gk gl h
    unfold goatRanked
    rw [List.filter_append, List.filter_append, List.filter_cons]
    simp only [h]
    simp
  · intro gs gk gl p hp
    unfold goatRanked at hp
    have h2 := List.Sublist.mem hp (List.take_sublist _ _)
    simp only [sortRecords, List.mem_insertionSort, List.mem_filter] at h2
    exact h2.2

/-- Witness for C2 at a concrete unresolvable record. -/
theorem C2_witness :
    (["a"].contains (normalize_key (ConsensusRecord.mk 999 5 1 "C").title) = false ∧
      goatRanked ([("a", ConsensusRecord.mk 500 3 1 "a")] ++
          ("c", ConsensusRecord.mk 999 5 1 "C") :: []) ["a"] 2 =
        goatRanked ([("a", ConsensusRecord.mk 500 3 1 "a")] ++ []) ["a"] 2) ∧
    (("a", ConsensusRecord.mk 500 3 1 "a") ∈
        goatRanked [("a", ConsensusRecord.mk 500 3 1 "a")] ["a"] 2 ∧
      ["a"].contains (normalize_key (ConsensusRecord.mk 500 3 1 "a").title) = true) :=
  ⟨⟨by decide, C2_resolution_miss.1 [("a", ConsensusRecord.mk 500 3 1 "a")] []
      "c" (ConsensusRecord.mk 999 5 1 "C") ["a"] 2 (by decide)⟩,
    ⟨by decide, C2_resolution_miss.2 [("a", ConsensusRecord.mk 500 3 1 "a")] ["a"] 2
      ("a", ConsensusRecord.mk 500 3 1 "a") (by decide)⟩⟩

/-! ## Helper lemmas about the batch maximum -/

theorem foldl_max_init_le (l : List Nat) : ∀ a : Nat, a ≤ l.foldl Nat.max a := by
  induction l with
  | nil => exact fun a => le_refl a
  | cons x rest ih =>
    intro a
    exact le_trans (Nat.le_max_left a x) (ih (Nat.max a x))

theorem le_foldl_max (l : List Nat) : ∀ (a x : Nat), x ∈ l → x ≤ l.foldl Nat.max a := by
  induction l with
  | nil => intro a x hx; simp at hx
  | cons y rest ih =>
    intro a x hx
    rcases List.mem_cons.mp hx with rfl | hx
    · exact le_trans (Nat.le_max_right a x) (foldl_max_init_le rest _)
    · exact ih _ x hx

theorem foldl_max_cons_mem : ∀ (rest : List Nat) (x : Nat),
    rest.foldl Nat.max x ∈ x :: rest := by
  intro rest
  induction rest with
  | nil => intro x; simp [List.foldl]
  | cons y r ih =>
    intro x
    have hstep : List.foldl Nat.max x (y :: r) = List.foldl Nat.max (Nat.max x y) r := rfl
    rcases List.mem_cons.mp (ih (Nat.max x y)) with h | h
    · rw [hstep, h]
      rcases Nat.le_total x y with hxy | hxy
      · have hm : Nat.max x y = y := Nat.max_eq_right hxy
        rw [hm]
        exact List.mem_cons_of_mem _ (List.mem_cons_self _ _)
      · have hm : Nat.max x y = x := Nat.max_eq_left hxy
        rw [hm]
        exact List.mem_cons_self _ _
    · rw [hstep]
      exact List.mem_cons_of_mem _ (List.mem_cons_of_mem _ h)

theorem foldl_max_mem (l : List Nat) (h : l ≠ []) : l.foldl Nat.max 0 ∈ l := by
  cases l with
  | nil => exact absurd rfl h
  | cons x rest =>
    have h0 : (x :: rest).foldl Nat.max 0 = rest.foldl Nat.max x := by
      simp [List.foldl, Nat.zero_max]
    rw [h0]
    exact foldl_max_cons_mem rest x

/-! ## Claim C3: popularity score formula -/

/-- Claim C3: with an empty weight mapping the score is
`raw_count / max_count`; with a non-empty mapping it is
`0.75 * (raw_count / max_count) + 0.25 * weight` with absent weights
defaulting to 0; `max_count` is 1 on an empty batch and otherwise the
maximum raw count across the whole batch (an attained upper bound of the
values). -/
theorem C3_popularity_score (pv : List (String × Nat)) (us : List (String × ℚ))
    (key : String) :
    (us = [] → search_score pv us key =
      (((afind key pv).getD 0 : Nat) : ℚ) / ((max_pv pv : Nat) : ℚ)) ∧
    (us ≠ [] → search_score pv us key =
      0.75 * ((((afind key pv).getD 0 : Nat) : ℚ) / ((max_pv pv : Nat) : ℚ)) +
        0.25 * ((afind key us).getD 0)) ∧
    (pv = [] → max_pv pv = 1) ∧
    (pv ≠ [] →
      (∀ x ∈ pv.map Prod.snd, x ≤ max_pv pv) ∧ max_pv pv ∈ pv.map Prod.snd) := by
  refine ⟨?_, ?_, ?_, ?_⟩
  · rintro rfl
    simp [search_score]
  · intro h
    have hb : us.isEmpty = false := by
      simp [List.isEmpty_iff, h]
    simp [search_score, hb]
  · rintro rfl
    rfl
  · intro h
    have hb : pv.isEmpty = false := by
      simp [List.isEmpty_iff, h]
    have hmax : max_pv pv = (pv.map Prod.snd).foldl Nat.max 0 := by
      simp [max_pv, hb]
    constructor
    · intro x hx
      rw [hmax]
      exact le_foldl_max _ 0 x hx
    · rw [hmax]
      exact foldl_max_mem _ (by simpa using h)

/-- Witness for C3 at a concrete batch and weight file. -/
theorem C3_witness :
    (([(("a" : String), (1/2 : ℚ))] ≠ []) ∧
      search_score [("a", 4), ("b", 2)] [("a", 1/2)] "a" =
        0.75 * ((((afind "a" [(("a" : String), (4 : Nat)), ("b", 2)]).getD 0 : Nat) : ℚ) /
            ((max_pv [("a", 4), ("b", 2)] : Nat) : ℚ)) +
          0.25 * ((afind "a" [(("a" : String), (1/2 : ℚ))]).getD 0)) ∧
    (([(("a" : String), (4 : Nat)), ("b", 2)] ≠ []) ∧
      max_pv [("a", 4), ("b", 2)] ∈ [(("a" : String), (4 : Nat)), ("b", 2)].map Prod.snd) :=
  ⟨⟨by simp, (C3_popularity_score [("a", 4), ("b", 2)] [("a", 1/2)] "a").2.1 (by simp)⟩,
    ⟨by simp, ((C3_popularity_score [("a", 4), ("b", 2)] [("a", 1/2)] "a").2.2.2 (by simp)).2⟩⟩

/-! ## Claim C10: scores stay in the unit interval -/

/-- Claim C10: if every supplied weight lies in `[0, 1]` then every
search score lies in `[0, 1]` — the normalized component is at most 1
because `max_count` bounds every raw count (absent identities count 0),
and `0.75 * normalized + 0.25 * weight` cannot exceed 1. -/
theorem C10_score_in_unit_interval (pv : List (String × Nat)) (us : List (String × ℚ))
    (hw : ∀ kw ∈ us, 0 ≤ kw.2 ∧ kw.2 ≤ 1) (key : String) :
    0 ≤ search_score pv us key ∧ search_score pv us key ≤ 1 := by
  have hraw : ((afind key pv).getD 0) ≤ max_pv pv := by
    cases h : afind key pv with
    | none => simp
    | some v =>
      have hm : v ∈ pv.map Prod.snd := List.mem_map.mpr ⟨(key, v), mem_of_afind h, rfl⟩
      have hne : pv ≠ [] := by
        rintro rfl
        simp [afind] at h
      have hb : pv.isEmpty = false := by simp [List.isEmpty_iff, hne]
      simp only [Option.getD_some]
      have : max_pv pv = (pv.map Prod.snd).foldl Nat.max 0 := by simp [max_pv, hb]
      rw [this]
      exact le_foldl_max _ 0 v hm
  have hnorm0 : 0 ≤ (((afind key pv).getD 0 : Nat) : ℚ) / ((max_pv pv : Nat) : ℚ) :=
    div_nonneg (by positivity) (by positivity)
  have hnorm1 : (((afind key pv).getD 0 : Nat) : ℚ) / ((max_pv pv : Nat) : ℚ) ≤ 1 := by
    rcases Nat.eq_zero_or_pos (max_pv pv) with hm | hm
    · have h0 : (afind key pv).getD 0 = 0 := Nat.le_zero.mp (hm ▸ hraw)
      rw [h0, hm]
      norm_num
    · rw [div_le_one (by exact_mod_cast hm)]
      exact_mod_cast hraw
  have hwb : 0 ≤ ((afind key us).getD 0 : ℚ) ∧ ((afind key us).getD 0 : ℚ) ≤ 1 := by
    cases h : afind key us with
    | none => simp
    | some w =>
      simpa using hw (key, w) (mem_of_afind h)
  have hsz : search_score pv us key =
      if us.isEmpty then (((afind key pv).getD 0 : Nat) : ℚ) / ((max_pv pv : Nat) : ℚ)
      else 0.75 * ((((afind key pv).getD 0 : Nat) : ℚ) / ((max_pv pv : Nat) : ℚ)) +
        0.25 * ((afind key us).getD 0) := rfl
  rw [hsz]
  by_cases hus : us.isEmpty = true
  · rw [if_pos hus]
    exact ⟨hnorm0, hnorm1⟩
  · rw [if_neg hus]
    constructor
    · have h1 : (0 : ℚ) ≤ 0.75 * ((((afind key pv).getD 0 : Nat) : ℚ) / ((max_pv pv : Nat) : ℚ)) :=
        mul_nonneg (by norm_num) hnorm0
      have h2 : (0 : ℚ) ≤ 0.25 * ((afind key us).getD 0 : ℚ) :=
        mul_nonneg (by norm_num) hwb.1
      linarith
    · have h1 : 0.75 * ((((afind key pv).getD 0 : Nat) : ℚ) / ((max_pv pv : Nat) : ℚ)) ≤ 0.75 * 1 :=
        mul_le_mul_of_nonneg_left hnorm1 (by norm_num)
      have h2 : 0.25 * ((afind key us).getD 0 : ℚ) ≤ 0.25 * 1 :=
        mul_le_mul_of_nonneg_left hwb.2 (by norm_num)
      linarith

/-- Witness for C10 at a concrete batch and weight file. -/
theorem C10_witness :
    (∀ kw ∈ [(("a" : String), (1/2 : ℚ))], 0 ≤ kw.2 ∧ kw.2 ≤ 1) ∧
    (0 ≤ search_score [("a", 4), ("b", 2)] [("a", 1/2)] "b" ∧
      search_score [("a", 4), ("b", 2)] [("a", 1/2)] "b" ≤ 1) :=
  ⟨by norm_num, C10_score_in_unit_interval [("a", 4), ("b", 2)] [("a", 1/2)]
    (by norm_num) "b"⟩

/-! ## Claim C4: consensus ordering -/

theorem tupLe_total : ∀ a b : Int × Int × Nat, tupLe a b ∨ tupLe b a := by
  intro a b
  unfold tupLe
  omega

theorem tupLe_trans : ∀ a b c : Int × Int × Nat, tupLe a b → tupLe b c → tupLe a c := by
  intro a b c
  unfold tupLe
  omega

instance : IsTotal (String × ConsensusRecord) goatLe :=
  ⟨fun a b => tupLe_total (goatKey a.2) (goatKey b.2)⟩

instance : IsTrans (String × ConsensusRecord) goatLe :=
  ⟨fun a b c => tupLe_trans (goatKey a.2) (goatKey b.2) (goatKey c.2)⟩

/-- Claim C4: the consensus sort orders records by the tuple
`(-points, -list_count, best_rank)` ascending — highest points first, then
larger list count, then smaller best rank — it permutes the input, and
records tied on all three components keep their encounter order. -/
theorem C4_consensus_ordering (l : List (String × ConsensusRecord)) :
    List.Perm (sortRecords l) l ∧
    (sortRecords l).Pairwise goatLe ∧
    (∀ a b : String × ConsensusRecord, goatLe a b ↔
      (b.2.points < a.2.points ∨ (b.2.points = a.2.points ∧
        (b.2.lists < a.2.lists ∨ (b.2.lists = a.2.lists ∧
          a.2.best_rank ≤ b.2.best_rank))))) ∧
    (∀ a b : String × ConsensusRecord, goatKey a.2 = goatKey b.2 →
      List.Sublist [a, b] l → List.Sublist [a, b] (sortRecords l)) := by
  refine ⟨List.perm_insertionSort goatLe l, List.sorted_insertionSort goatLe l, ?_, ?_⟩
  · intro a b
    simp only [goatLe, tupLe, goatKey]
    omega
  · intro a b hk hsub
    have hle : goatLe a b := by
      unfold goatLe
      rw [hk]
      unfold tupLe
      omega
    exact List.pair_sublist_insertionSort hle hsub

/-- Witness for C4 at a concrete tie. -/
theorem C4_witness :
    goatKey (ConsensusRecord.mk 5 1 2 "x") = goatKey (ConsensusRecord.mk 5 1 2 "y") ∧
    List.Sublist [(("a" : String), ConsensusRecord.mk 5 1 2 "x"), ("b", ConsensusRecord.mk 5 1 2 "y")]
      [(("a" : String), ConsensusRecord.mk 5 1 2 "x"), ("b", ConsensusRecord.mk 5 1 2 "y")] ∧
    List.Sublist [(("a" : String), ConsensusRecord.mk 5 1 2 "x"), ("b", ConsensusRecord.mk 5 1 2 "y")]
      (sortRecords [("a", ConsensusRecord.mk 5 1 2 "x"), ("b", ConsensusRecord.mk 5 1 2 "y")]) :=
  ⟨rfl, List.Sublist.refl _,
    (C4_consensus_ordering
      [("a", ConsensusRecord.mk 5 1 2 "x"), ("b", ConsensusRecord.mk 5 1 2 "y")]).2.2.2
      ("a", ConsensusRecord.mk 5 1 2 "x") ("b", ConsensusRecord.mk 5 1 2 "y") rfl
      (List.Sublist.refl _)⟩

/-! ## Claim C9: fetch isolation -/

theorem upsert_append {m : List (String × Nat)} {kv : String × Nat}
    (h : afind kv.1 m = none) : upsert m kv = m ++ [kv] := by
  unfold upsert
  rw [h]

theorem mergeAux (l : List (String × Nat × Option String)) :
    (l.map (fun r => r.1)).Nodup →
    ∀ acc : List (String × Nat), (∀ x ∈ l, afind x.1 acc = none) →
      l.foldl (fun m r => upsert m (r.1, r.2.1)) acc =
        acc ++ l.map (fun r => (r.1, r.2.1)) := by
  induction l with
  | nil => intro _ acc _; simp
  | cons x rest ih =>
    intro hnd acc h
    simp only [List.map_cons, List.nodup_cons] at hnd
    have hx : afind x.1 acc = none := h x (List.mem_cons_self _ _)
    have step : (x :: rest).foldl (fun m r => upsert m (r.1, r.2.1)) acc =
        rest.foldl (fun m r => upsert m (r.1, r.2.1)) (upsert acc (x.1, x.2.1)) := rfl
    rw [step, upsert_append hx]
    rw [ih hnd.2 _ ?_]
    · simp
    · intro y hy
      have hkey : y.1 ≠ x.1 := fun he => hnd.1 (he ▸ List.mem_map.mpr ⟨y, hy, rfl⟩)
      rw [afind_append_none (h y (List.mem_cons_of_mem _ hy))]
      simp [afind, Ne.symm hkey]

theorem mergeResults_eq (completions : List (String × Nat × Option String))
    (hnd : (completions.map (fun r => r.1)).Nodup) :
    mergeResults completions = completions.map (fun r => (r.1, r.2.1)) := by
  unfold mergeResults
  simpa using mergeAux completions hnd [] (by intro x _; rfl)

theorem fetch_one_fst (fetch : FilmItem → Except String Nat) (e : String × FilmItem) :
    (fetch_one fetch e).1 = e.1 := by
  unfold fetch_one
  cases fetch e.2 <;> rfl

theorem fetch_one_val (fetch : FilmItem → Except String Nat) (e : String × FilmItem) :
    (fetch_one fetch e).2.1 = (match fetch e.2 with | .ok n => n | .error _ => 0) := by
  unfold fetch_one
  cases fetch e.2 <;> rfl

/-- Claim C9: each candidate's fetch succeeds or fails independently — under
any completion order (any permutation of the per-item results), the merged
map has exactly one entry per candidate, a candidate whose fetch raised maps
to score 0, every candidate maps to its own fetch result, and no candidate
is dropped (the merged key multiset is exactly the candidate key multiset). -/
theorem C9_fetch_isolation (uni : List (String × FilmItem))
    (fetch : FilmItem → Except String Nat)
    (completions : List (String × Nat × Option String))
    (hperm : List.Perm completions (uni.map (fetch_one fetch)))
    (hkeys : (keys uni).Nodup) :
    (mergeResults completions).length = uni.length ∧
    (∀ ki ∈ uni, afind ki.1 (mergeResults completions) =
      some (match fetch ki.2 with | .ok n => n | .error _ => 0)) ∧
    (∀ ki ∈ uni, ∀ e, fetch ki.2 = .error e →
      afind ki.1 (mergeResults completions) = some 0) ∧
    List.Perm (keys (mergeResults completions)) (keys uni) := by
  have hmapkeys : (uni.map (fetch_one fetch)).map (fun r => r.1) = keys uni := by
    rw [List.map_map]
    exact List.map_congr_left (fun a _ => fetch_one_fst fetch a)
  have hckeys : List.Perm (completions.map (fun r => r.1)) (keys uni) :=
    (hperm.map _).trans (by rw [hmapkeys])
  have hnd : (completions.map (fun r => r.1)).Nodup := hckeys.nodup_iff.mpr hkeys
  have heq := mergeResults_eq completions hnd
  have hmergedkeys : keys (mergeResults completions) = completions.map (fun r => r.1) := by
    rw [heq]
    unfold keys
    rw [List.map_map]
    rfl
  have hlookup : ∀ ki ∈ uni, afind ki.1 (mergeResults completions) =
      some (match fetch ki.2 with | .ok n => n | .error _ => 0) := by
    intro ki hki
    have hmem1 : fetch_one fetch ki ∈ completions :=
      hperm.mem_iff.mpr (List.mem_map_of_mem _ hki)
    have hmem2 : ((fetch_one fetch ki).1, (fetch_one fetch ki).2.1) ∈
        completions.map (fun r => (r.1, r.2.1)) :=
      List.mem_map_of_mem _ hmem1
    have hmem3 : (ki.1, (match fetch ki.2 with | .ok n => n | .error _ => 0)) ∈
        mergeResults completions := by
      rw [heq]
      rw [fetch_one_fst fetch ki, fetch_one_val fetch ki] at hmem2
      exact hmem2
    exact afind_of_mem_nodup (hmergedkeys ▸ hnd) hmem3
  refine ⟨?_, hlookup, ?_, ?_⟩
  · rw [heq]
    rw [List.length_map, hperm.length_eq, List.length_map]
  · intro ki hki e he
    have h := hlookup ki hki
    rw [he] at h
    exact h
  · rw [hmergedkeys]
    exact hckeys

/-- Witness for C9 at a concrete batch with one failing fetch. -/
theorem C9_witness :
    List.Perm [(("a" : String), (3 : Nat), (none : Option String)), ("b", 0, some "boom")]
      ([(("a" : String), FilmItem.mk "A" "A" "Q1"), ("b", FilmItem.mk "B" "B" "Q2")].map
        (fetch_one (fun item =>
          if item.wikipedia_title = "A" then Except.ok 3 else Except.error "boom"))) ∧
    (keys [(("a" : String), FilmItem.mk "A" "A" "Q1"), ("b", FilmItem.mk "B" "B" "Q2")]).Nodup ∧
    (mergeResults [(("a" : String), (3 : Nat), (none : Option String)),
        ("b", 0, some "boom")]).length =
      [(("a" : String), FilmItem.mk "A" "A" "Q1"), ("b", FilmItem.mk "B" "B" "Q2")].length :=
  ⟨by decide, by decide,
    (C9_fetch_isolation
      [(("a" : String), FilmItem.mk "A" "A" "Q1"), ("b", FilmItem.mk "B" "B" "Q2")]
      (fun item => if item.wikipedia_title = "A" then Except.ok 3 else Except.error "boom")
      [(("a" : String), (3 : Nat), (none : Option String)), ("b", 0, some "boom")]
      (by decide) (by decide)).1⟩

/-! ## Claim C1: segment selector budgets and order -/

instance : IsTotal (String × ℚ) scoreLe := ⟨fun a b => le_total b.2 a.2⟩

instance : IsTrans (String × ℚ) scoreLe := ⟨fun _ _ _ h1 h2 => le_trans h2 h1⟩

/-- Claim C1: with budgets `goat_limit ≤ seed_limit` the selector emits at
most `goat_limit` reserved items and at most `seed_limit` items in total;
the remainder segment has at most `seed_limit - goat_limit` entries, each a
universe candidate outside the reserved identities carrying its search
score, sorted by score descending; and the output is the reserved segment
followed by the remainder segment. -/
theorem C1_segment_selector (gs : List (String × ConsensusRecord)) (gk : List String)
    (uni : List (String × FilmItem)) (pv : List (String × Nat)) (us : List (String × ℚ))
    (gl sl : Nat) (h : gl ≤ sl) :
    (goatRanked gs gk gl).length ≤ gl ∧
    (likelySelected uni (goatRanked gs gk gl) pv us sl gl).length ≤ sl - gl ∧
    (∀ ks ∈ likelySelected uni (goatRanked gs gk gl) pv us sl gl,
      ks.1 ∈ keys uni ∧ ks.1 ∉ keys (goatRanked gs gk gl) ∧
      ks.2 = search_score pv us ks.1) ∧
    (likelySelected uni (goatRanked gs gk gl) pv us sl gl).Pairwise
      (fun a b => b.2 ≤ a.2) ∧
    (seed_items uni (goatRanked gs gk gl)
      (likelySelected uni (goatRanked gs gk gl) pv us sl gl) pv us).length ≤ sl ∧
    (∃ g r, seed_items uni (goatRanked gs gk gl)
        (likelySelected uni (goatRanked gs gk gl) pv us sl gl) pv us = g ++ r ∧
      g.length ≤ gl ∧ r.length ≤ sl - gl ∧
      (∀ x ∈ g, x.segment = "goat") ∧ (∀ x ∈ r, x.segment = "likely")) := by
  have htake : ∀ {α : Type} (n : Nat) (l : List α), (l.take n).length ≤ n := by
    intro α n l
    rw [List.length_take]
    exact min_le_left _ _
  have hlen1 : (goatRanked gs gk gl).length ≤ gl := htake gl _
  have hlen2 : (likelySelected uni (goatRanked gs gk gl) pv us sl gl).length ≤ sl - gl :=
    htake (sl - gl) _
  have hmem : ∀ ks ∈ likelySelected uni (goatRanked gs gk gl) pv us sl gl,
      ks.1 ∈ keys uni ∧ ks.1 ∉ keys (goatRanked gs gk gl) ∧
      ks.2 = search_score pv us ks.1 := by
    intro ks hks
    have h1 : ks ∈ List.insertionSort scoreLe
        (likelyCandidates uni (goatRanked gs gk gl) pv us) :=
      List.Sublist.mem hks (List.take_sublist _ _)
    rw [List.mem_insertionSort] at h1
    unfold likelyCandidates at h1
    obtain ⟨k, hk, rfl⟩ := List.mem_map.mp h1
    have hk2 := List.mem_filter.mp hk
    have hnotin : k ∉ keys (goatRanked gs gk gl) := by
      intro hmem2
      have hc : (keys (goatRanked gs gk gl)).contains k = true := List.elem_iff.mpr hmem2
      have hf := hk2.2
      rw [hc] at hf
      simp at hf
    exact ⟨hk2.1, hnotin, rfl⟩
  have hsorted : (likelySelected uni (goatRanked gs gk gl) pv us sl gl).Pairwise
      (fun a b => b.2 ≤ a.2) :=
    List.Pairwise.sublist (List.take_sublist _ _)
      (List.sorted_insertionSort scoreLe _)
  have hglen : ((goatRanked gs gk gl).filterMap (fun kd => (afind kd.1 uni).map (fun item =>
      (⟨item.title, item.wikipedia_title, item.wikidata_id, "goat",
        some kd.2.points, (afind kd.1 pv).getD 0, search_score pv us kd.1⟩ : SeedItem)))).length ≤ gl :=
    le_trans (List.length_filterMap_le _ _) hlen1
  have hllen : ((likelySelected uni (goatRanked gs gk gl) pv us sl gl).filterMap
      (fun ks => (afind ks.1 uni).map (fun item =>
        (⟨item.title, item.wikipedia_title, item.wikidata_id, "likely",
          none, (afind ks.1 pv).getD 0, ks.2⟩ : SeedItem)))).length ≤ sl - gl :=
    le_trans (List.length_filterMap_le _ _) hlen2
  have htotal : (seed_items uni (goatRanked gs gk gl)
      (likelySelected uni (goatRanked gs gk gl) pv us sl gl) pv us).length ≤ sl := by
    unfold seed_items
    rw [List.length_append]
    omega
  refine ⟨hlen1, hlen2, hmem, hsorted, htotal, ?_⟩
  refine ⟨_, _, rfl, hglen, hllen, ?_, ?_⟩
  · intro x hx
    obtain ⟨kd, _, hx2⟩ := List.mem_filterMap.mp hx
    obtain ⟨item, _, hx3⟩ := Option.map_eq_some'.mp hx2
    rw [← hx3]
  · intro x hx
    obtain ⟨ks, _, hx2⟩ := List.mem_filterMap.mp hx
    obtain ⟨item, _, hx3⟩ := Option.map_eq_some'.mp hx2
    rw [← hx3]

/-- Witness for C1 at the spec example shape (2 reserved, budget 5). -/
theorem C1_witness :
    (2 : Nat) ≤ 5 ∧
    (goatRanked wGs wGk 2).length ≤ 2 ∧
    (seed_items wUni (goatRanked wGs wGk 2)
      (likelySelected wUni (goatRanked wGs wGk 2) wPv [] 5 2) wPv []).length ≤ 5 :=
  ⟨by decide, (C1_segment_selector wGs wGk wUni wPv [] 2 5 (by decide)).1,
    (C1_segment_selector wGs wGk wUni wPv [] 2 5 (by decide)).2.2.2.2.1⟩

/-! ## Claim C7: extraction strategy fallback -/

theorem tryOls_cases (ols : List Node) :
    tryOls ols = [] ∨ ∃ ol ∈ ols, 50 ≤ (directLis ol).length ∧
      tryOls ols = olEntries ol ∧ olEntries ol ≠ [] := by
  induction ols with
  | nil => left; rfl
  | cons ol rest ih =>
    by_cases hlen : (directLis ol).length < 50
    · have hstep : tryOls (ol :: rest) = tryOls rest := by
        show (if (directLis ol).length < 50 then tryOls rest
          else match olEntries ol with | [] => tryOls rest | rs => rs) = tryOls rest
        rw [if_pos hlen]
      rcases ih with h | ⟨ol2, hm, h50, heq, hne⟩
      · left
        rw [hstep, h]
      · right
        exact ⟨ol2, List.mem_cons_of_mem _ hm, h50, hstep ▸ heq, hne⟩
    · cases he : olEntries ol with
      | nil =>
        have hstep : tryOls (ol :: rest) = tryOls rest := by
          show (if (directLis ol).length < 50 then tryOls rest
            else match olEntries ol with | [] => tryOls rest | rs => rs) = tryOls rest
          rw [if_neg hlen, he]
        rcases ih with h | ⟨ol2, hm, h50, heq, hne⟩
        · left
          rw [hstep, h]
        · right
          exact ⟨ol2, List.mem_cons_of_mem _ hm, h50, hstep ▸ heq, hne⟩
      | cons e es =>
        have hstep : tryOls (ol :: rest) = olEntries ol := by
          show (if (directLis ol).length < 50 then tryOls rest
            else match olEntries ol with | [] => tryOls rest | rs => rs) = olEntries ol
          rw [if_neg hlen, he]
        right
        exact ⟨ol, List.mem_cons_self _ _, Nat.le_of_not_lt hlen, hstep,
          by rw [he]; exact List.cons_ne_nil _ _⟩

theorem olEntries_rank (ol : Node) :
    ∀ e ∈ olEntries ol, 1 ≤ e.1 ∧ ∃ li, (directLis ol)[e.1 - 1]? = some li ∧
      truthyTitle (extract_title_from_node li) = some e.2 := by
  intro e he
  unfold olEntries at he
  obtain ⟨p, hp, hmap⟩ := List.mem_filterMap.mp he
  obtain ⟨t, ht, hft⟩ := Option.map_eq_some'.mp hmap
  obtain ⟨i, li⟩ := p
  have hidx := List.mk_mem_enumFrom_iff_le_and_getElem?_sub.mp hp
  rw [← hft]
  exact ⟨hidx.1, li, hidx.2, ht⟩

/-- Claim C7: the ordered-list strategy runs first and its entries, when
any accepted (≥ 50 direct items) list yields one, are the whole result;
tables are consulted only when the ordered-list strategy yields nothing;
ordered-list ranks are 1-based positions; and an empty document, or one
with no ranking structure at all, yields the empty sequence. -/
theorem C7_extractor_fallback (doc : List Node) :
    (tryOls (findAllTop (isTag "ol") doc) ≠ [] →
      extract_ranked_from_html doc = tryOls (findAllTop (isTag "ol") doc)) ∧
    (tryOls (findAllTop (isTag "ol") doc) = [] →
      extract_ranked_from_html doc = tryTables (findAllTop (isTag "table") doc)) ∧
    (tryOls (findAllTop (isTag "ol") doc) = [] ∨
      ∃ ol ∈ findAllTop (isTag "ol") doc, 50 ≤ (directLis ol).length ∧
        tryOls (findAllTop (isTag "ol") doc) = olEntries ol) ∧
    (∀ ol : Node, ∀ e ∈ olEntries ol, 1 ≤ e.1 ∧
      ∃ li, (directLis ol)[e.1 - 1]? = some li ∧
        truthyTitle (extract_title_from_node li) = some e.2) ∧
    extract_ranked_from_html [] = [] ∧
    (findAllTop (isTag "ol") doc = [] → findAllTop (isTag "table") doc = [] →
      extract_ranked_from_html doc = []) := by
  refine ⟨?_, ?_, ?_, olEntries_rank, rfl, ?_⟩
  · intro hne
    unfold extract_ranked_from_html
    cases h : tryOls (findAllTop (isTag "ol") doc) with
    | nil => exact absurd h hne
    | cons e es => rfl
  · intro h
    unfold extract_ranked_from_html
    rw [h]
  · rcases tryOls_cases (findAllTop (isTag "ol") doc) with h | ⟨ol, hm, h50, heq, _⟩
    · left; exact h
    · right; exact ⟨ol, hm, h50, heq⟩
  · intro h1 h2
    unfold extract_ranked_from_html
    rw [h1, h2]
    rfl

/-- Witness for C7: a 50-item ordered list wins over any table. -/
theorem C7_witness :
    tryOls (findAllTop (isTag "ol") wOlDoc) ≠ [] ∧
    extract_ranked_from_html wOlDoc = tryOls (findAllTop (isTag "ol") wOlDoc) :=
  ⟨by decide, (C7_extractor_fallback wOlDoc).1 (by decide)⟩

/-! ## Claim C8: ranks produced by the extractor -/

/-- Counterexample to claim C8 as stated: the table strategy accepts a
first-cell `0` as a rank, so not every emitted rank is ≥ 1. -/
theorem C8_counterexample :
    ¬ (∀ e ∈ extract_ranked_from_html wC8Doc, 1 ≤ e.1) := by
  decide

theorem digitVal_le_nine {c : Char} (h : c.isDigit = true) : digitVal c ≤ 9 := by
  simp only [Char.isDigit, Bool.and_eq_true, decide_eq_true_eq] at h
  have h57 : c.toNat ≤ 57 := UInt32.toNat_le_of_le (by norm_num) h.2
  unfold digitVal
  omega

theorem tryDigitsAt_le (l : List Char) (r : Nat) (h : tryDigitsAt l = some r) :
    r ≤ 999 := by
  match l with
  | [] => simp [tryDigitsAt] at h
  | [a] =>
    simp only [tryDigitsAt] at h
    split at h
    · rename_i ha
      cases h
      have := digitVal_le_nine ha
      omega
    · simp at h
  | [a, b] =>
    simp only [tryDigitsAt] at h
    split at h
    · rename_i hab
      simp only [Bool.and_eq_true] at hab
      cases h
      have ha := digitVal_le_nine hab.1
      have hb := digitVal_le_nine hab.2
      omega
    · split at h
      · rename_i hab
        simp only [Bool.and_eq_true] at hab
        cases h
        have := digitVal_le_nine hab.1
        omega
      · simp at h
  | a :: b :: c :: rest =>
    simp only [tryDigitsAt] at h
    split at h
    · rename_i habc
      simp only [Bool.and_eq_true] at habc
      cases h
      have ha := digitVal_le_nine habc.1.1.1
      have hb := digitVal_le_nine habc.1.1.2
      have hc := digitVal_le_nine habc.1.2
      omega
    · split at h
      · rename_i hab
        simp only [Bool.and_eq_true] at hab
        cases h
        have ha := digitVal_le_nine hab.1.1
        have hb := digitVal_le_nine hab.1.2
        omega
      · split at h
        · rename_i hab
          simp only [Bool.and_eq_true] at hab
          cases h
          have := digitVal_le_nine hab.1
          omega
        · simp at h

theorem findRank_le (l : List Char) : ∀ (w : Bool) (r : Nat),
    findRank w l = some r → r ≤ 999 := by
  induction l with
  | nil => intro w r h; simp [findRank] at h
  | cons c rest ih =>
    intro w r h
    simp only [findRank] at h
    split at h
    · cases ht : tryDigitsAt (c :: rest) with
      | some n =>
        rw [ht] at h
        have hnr : n = r := by
          have h2 : some n = some r := h
          exact Option.some.inj h2
        exact hnr ▸ tryDigitsAt_le _ _ ht
      | none =>
        rw [ht] at h
        exact ih _ r h
    · exact ih _ r h

/-- Claim C8 amended: ordered-list ranks are always ≥ 1, but the table
strategy takes the first word-bounded 1–3 digit integer of the row's first
cell as the rank, which can be `0`; so table ranks only satisfy
`0 ≤ rank ≤ 999`.  Rows whose first cell holds no such integer are
skipped. -/
theorem rowEntry_eq (row : Node) : rowEntry row =
    match cellsOf row with
    | [] => none
    | c0 :: _ =>
      match extract_rank (getTextN c0) with
      | none => none
      | some r => (truthyTitle (extract_title_from_node row)).map (fun t => (r, t)) := rfl

theorem C8_rank_amended :
    (∀ ol : Node, ∀ e ∈ olEntries ol, 1 ≤ e.1) ∧
    (∀ (row : Node) (r : Nat) (t : String), rowEntry row = some (r, t) →
      ∃ c0 rest, cellsOf row = c0 :: rest ∧ extract_rank (getTextN c0) = some r) ∧
    (∀ (row c0 : Node) (rest : List Node), cellsOf row = c0 :: rest →
      extract_rank (getTextN c0) = none → rowEntry row = none) ∧
    (∀ (s : String) (r : Nat), extract_rank s = some r → r ≤ 999) := by
  refine ⟨fun ol e he => (olEntries_rank ol e he).1, ?_, ?_, ?_⟩
  · intro row r t h
    rw [rowEntry_eq] at h
    split at h
    · exact absurd h (by simp)
    · rename_i c0 rest hc
      split at h
      · exact absurd h (by simp)
      · rename_i r2 hr
        obtain ⟨t2, _, hft⟩ := Option.map_eq_some'.mp h
        have hr2 : r2 = r := congrArg Prod.fst hft
        exact ⟨c0, rest, hc, hr2 ▸ hr⟩
  · intro row c0 rest hc hr
    rw [rowEntry_eq, hc]
    show (match extract_rank (getTextN c0) with
      | none => none
      | some r2 => (truthyTitle (extract_title_from_node row)).map (fun t => (r2, t))) = none
    rw [hr]
  · intro s r h
    exact findRank_le s.data false r h

/-- Witness for the amended C8 at a concrete row. -/
theorem C8_witness :
    rowEntry wRow = some (12, "Casablanca") ∧
    (∃ c0 rest, cellsOf wRow = c0 :: rest ∧ extract_rank (getTextN c0) = some 12) ∧
    extract_rank "no digits here" = none := by
  refine ⟨by decide, C8_rank_amended.2.1 wRow 12 "Casablanca" (by decide), by decide⟩

end Seed
